import Mathlib

/-!
Verification development for the podcast-transcriber service
(`src/main.py`, `src/db.py`).

Strings are modelled as `List Char`.  Machine-level behaviour of the
Python runtime that the claims depend on (dict assignment ordering,
`len`/slicing type errors, tuple-unpacking errors) is embedded
explicitly; fallible operations return `Except PyErr _`.
-/

namespace Podcast

/-- Python exception kinds that the embedded code can raise. -/
inductive PyErr where
  | typeError
  | keyError
  | valueError
  | attributeError
deriving DecidableEq

/-! ## Whitespace predicates

`isSpace` models the character class stripped by Python `str.strip()`
and matched by the regex `\s` for ASCII text: space, tab, newline,
carriage return, vertical tab, form feed.  `isJsonWs` models the
whitespace accepted by `json.loads` between tokens: space, tab,
newline, carriage return only. -/

def isSpace (c : Char) : Bool :=
  c = ' ' || c = '\t' || c = '\n' || c = '\r' || c = '\x0b' || c = '\x0c'

def isJsonWs (c : Char) : Bool :=
  c = ' ' || c = '\t' || c = '\n' || c = '\r'

/-- Drop trailing whitespace. -/
def stripEnd (l : List Char) : List Char :=
  (l.reverse.dropWhile isSpace).reverse

/-- Python `str.strip()`: drop whitespace from both ends. -/
def strip (l : List Char) : List Char :=
  stripEnd (l.dropWhile isSpace)

/-- Closing brackets of the character class `[\]}]`. -/
def isCloser (c : Char) : Bool :=
  c = ']' || c = '\x7d'

/-- Lookahead for the tail of the pattern `,(\s*[\]}])`: the text after
a comma starts with whitespace followed by a closing bracket. -/
def commaMatch (rest : List Char) : Bool :=
  match rest.dropWhile isSpace with
  | d :: _ => isCloser d
  | [] => false

/-- The pass `re.sub(r",(\s*[\]}])", r"\1", text)`: every comma that is
followed (modulo whitespace) by a closing bracket is dropped; all other
characters are kept.  Every match begins at a comma and the rest of the
matched text (`\s*[\]}]`, kept verbatim by the replacement `\1`)
contains no comma, so the left-to-right non-overlapping scan of
`re.sub` deletes exactly the commas whose lookahead matches; this
definition performs that per-comma lookahead directly. -/
def subTrailingCommas : List Char → List Char
  | [] => []
  | c :: rest =>
    if c = ',' && commaMatch rest then subTrailingCommas rest
    else c :: subTrailingCommas rest

/-- `sanitize_json_output` from `src/main.py`: strip the text, remove
trailing commas before closing brackets, and append a `\x7d` if the
result does not end with one. -/
def sanitize_json_output (text : List Char) : List Char :=
  let sanitized := subTrailingCommas (strip text)
  if sanitized.getLast? = some '\x7d' then sanitized else sanitized ++ ['\x7d']

/-! ## JSON values and `json.loads`

`JVal` models the Python values produced by `json.loads`: `None`,
booleans, numbers (kept as their lexeme), strings, lists and dicts.  A
dict is an insertion-ordered association list; `dictSet` is Python
dict assignment (`d[k] = v`): replace the value at an existing key in
place, otherwise append the new pair at the end.  The parser mirrors
the strict-mode decoder used by `json.loads`: JSON whitespace between
tokens, no trailing commas, string escapes, the number grammar of the
decoder's regular expression, the `NaN` / `Infinity` / `-Infinity`
constants, and last-wins duplicate object keys. -/

inductive JVal where
  | null
  | bool (b : Bool)
  | num (lexeme : List Char)
  | str (s : List Char)
  | arr (xs : List JVal)
  | obj (kvs : List (List Char × JVal))

/-- Python dict assignment `d[k] = v` on an ordered association list. -/
def dictSet : List (List Char × JVal) → List Char → JVal → List (List Char × JVal)
  | [], k, v => [(k, v)]
  | p :: rest, k, v => if p.1 = k then (k, v) :: rest else p :: dictSet rest k v

/-- Python dict lookup `d.get(k)` on an ordered association list. -/
def dictGet : List (List Char × JVal) → List Char → Option JVal
  | [], _ => none
  | p :: rest, k => if p.1 = k then some p.2 else dictGet rest k

def isDigit (c : Char) : Bool :=
  '0' ≤ c && c ≤ '9'

/-- Hexadecimal digit value, for the escape form `\uXXXX`. -/
def hexVal (c : Char) : Option Nat :=
  if '0' ≤ c && c ≤ '9' then some (c.toNat - 48)
  else if 'a' ≤ c && c ≤ 'f' then some (c.toNat - 87)
  else if 'A' ≤ c && c ≤ 'F' then some (c.toNat - 55)
  else none

/-- Strict-mode JSON string body parser, entered after the opening
quote; returns the decoded content and the remainder after the closing
quote.  Unescaped control characters are rejected, escapes are the
eight single-character ones plus `\uXXXX` (surrogate pairing of
escapes is not modelled; no claim exercises it). -/
def parseJString : List Char → Option (List Char × List Char)
  | [] => none
  | '"' :: rest => some ([], rest)
  | '\\' :: e :: rest =>
    if e = '"' || e = '\\' || e = '/' then
      match parseJString rest with
      | some (s, r) => some (e :: s, r)
      | none => none
    else if e = 'b' then
      match parseJString rest with
      | some (s, r) => some ('\x08' :: s, r)
      | none => none
    else if e = 'f' then
      match parseJString rest with
      | some (s, r) => some ('\x0c' :: s, r)
      | none => none
    else if e = 'n' then
      match parseJString rest with
      | some (s, r) => some ('\n' :: s, r)
      | none => none
    else if e = 'r' then
      match parseJString rest with
      | some (s, r) => some ('\r' :: s, r)
      | none => none
    else if e = 't' then
      match parseJString rest with
      | some (s, r) => some ('\t' :: s, r)
      | none => none
    else if e = 'u' then
      match rest with
      | a :: b :: c :: d :: rest2 =>
        match hexVal a, hexVal b, hexVal c, hexVal d with
        | some ha, some hb, some hc, some hd =>
          match parseJString rest2 with
          | some (s, r) => some (Char.ofNat (((ha * 16 + hb) * 16 + hc) * 16 + hd) :: s, r)
          | none => none
        | _, _, _, _ => none
      | _ => none
    else none
  | c :: rest =>
    if c.toNat < 32 then none
    else
      match parseJString rest with
      | some (s, r) => some (c :: s, r)
      | none => none

/-- Integer part of the decoder's number grammar: `0` or a nonzero
digit followed by digits. -/
def numInt : List Char → Option (List Char × List Char)
  | '0' :: rest => some (['0'], rest)
  | c :: rest => if isDigit c then some (c :: rest.takeWhile isDigit, rest.dropWhile isDigit) else none
  | [] => none

/-- Optional fraction part of the number grammar: a dot followed by at
least one digit, otherwise nothing is consumed. -/
def numFrac (rest : List Char) : List Char × List Char :=
  match rest with
  | '.' :: r2 =>
    let ds := r2.takeWhile isDigit
    if ds = [] then ([], rest) else ('.' :: ds, r2.dropWhile isDigit)
  | _ => ([], rest)

/-- Optional exponent part of the number grammar: `e` or `E`, an
optional sign, and at least one digit, otherwise nothing is consumed. -/
def numExp (rest : List Char) : List Char × List Char :=
  match rest with
  | e :: r2 =>
    if e = 'e' || e = 'E' then
      match r2 with
      | s :: r3 =>
        if s = '+' || s = '-' then
          let ds := r3.takeWhile isDigit
          if ds = [] then ([], rest) else (e :: s :: ds, r3.dropWhile isDigit)
        else
          let ds := r2.takeWhile isDigit
          if ds = [] then ([], rest) else (e :: ds, r2.dropWhile isDigit)
      | [] => ([], rest)
    else ([], rest)
  | [] => ([], rest)

/-- Number token (kept as its lexeme), including the decoder's
`Infinity` and `-Infinity` constants, which it tries after the number
expression fails to match. -/
def parseNumber (l : List Char) : Option (JVal × List Char) :=
  match l with
  | '-' :: m =>
    match numInt m with
    | some (i, r1) =>
      let fr := numFrac r1
      let ex := numExp fr.2
      some (.num ('-' :: (i ++ fr.1 ++ ex.1)), ex.2)
    | none =>
      if m.take 8 = ("Infinity".data) then some (.num ("-Infinity".data), m.drop 8) else none
  | _ =>
    match numInt l with
    | some (i, r1) =>
      let fr := numFrac r1
      let ex := numExp fr.2
      some (.num (i ++ fr.1 ++ ex.1), ex.2)
    | none =>
      if l.take 8 = ("Infinity".data) then some (.num ("Infinity".data), l.drop 8) else none

/-! Recursive-descent value parser of the strict `json.loads` decoder,
positioned at a non-whitespace character.  The fuel argument only
bounds recursion depth; every recursive call first consumes at least
one input character, so any fuel larger than the input length is
sufficient (`json_loads` passes `length + 1`). -/
mutual

def parseValue : Nat → List Char → Option (JVal × List Char)
  | 0, _ => none
  | fuel + 1, l =>
    match l with
    | [] => none
    | '"' :: rest =>
      match parseJString rest with
      | some (s, rest2) => some (.str s, rest2)
      | none => none
    | '\x7b' :: rest =>
      match rest.dropWhile isJsonWs with
      | '\x7d' :: rest2 => some (.obj [], rest2)
      | r => parseMembers fuel r []
    | '[' :: rest =>
      match rest.dropWhile isJsonWs with
      | ']' :: rest2 => some (.arr [], rest2)
      | r => parseElements fuel r []
    | 't' :: 'r' :: 'u' :: 'e' :: rest => some (.bool true, rest)
    | 'f' :: 'a' :: 'l' :: 's' :: 'e' :: rest => some (.bool false, rest)
    | 'n' :: 'u' :: 'l' :: 'l' :: rest => some (.null, rest)
    | 'N' :: 'a' :: 'N' :: rest => some (.num ("NaN".data), rest)
    | _ => parseNumber l

/-- Object members, positioned at the (non-whitespace) start of a key. -/
def parseMembers : Nat → List Char → List (List Char × JVal) → Option (JVal × List Char)
  | 0, _, _ => none
  | fuel + 1, l, acc =>
    match l with
    | '"' :: rest =>
      match parseJString rest with
      | some (k, rest1) =>
        match rest1.dropWhile isJsonWs with
        | ':' :: rest2 =>
          match parseValue fuel (rest2.dropWhile isJsonWs) with
          | some (v, rest3) =>
            match rest3.dropWhile isJsonWs with
            | ',' :: rest4 => parseMembers fuel (rest4.dropWhile isJsonWs) (dictSet acc k v)
            | '\x7d' :: rest4 => some (.obj (dictSet acc k v), rest4)
            | _ => none
          | none => none
        | _ => none
      | none => none
    | _ => none

/-- Array elements, positioned at the (non-whitespace) start of a value. -/
def parseElements : Nat → List Char → List JVal → Option (JVal × List Char)
  | 0, _, _ => none
  | fuel + 1, l, acc =>
    match parseValue fuel l with
    | some (v, rest) =>
      match rest.dropWhile isJsonWs with
      | ',' :: rest2 => parseElements fuel (rest2.dropWhile isJsonWs) (acc ++ [v])
      | ']' :: rest2 => some (.arr (acc ++ [v]), rest2)
      | _ => none
    | none => none

end

/-- Python `json.loads`: skip leading whitespace, parse one value,
require only whitespace after it. -/
def json_loads (s : List Char) : Option JVal :=
  match parseValue (s.length + 1) (s.dropWhile isJsonWs) with
  | some (v, rest) => if rest.dropWhile isJsonWs = [] then some v else none
  | none => none

/-- Text accepted by `json.loads`. -/
def jsonValid (s : List Char) : Bool :=
  (json_loads s).isSome

/-! ## Python runtime helpers used by the quiz code -/

/-- Contiguous-substring test, for Python `key in someString`. -/
def listSubstring (needle : List Char) : List Char → Bool
  | [] => needle.isEmpty
  | c :: rest => needle.isPrefixOf (c :: rest) || listSubstring needle rest

/-- Python `key in v` for a string key: dict key membership, list
element membership (elements equal to the key string), substring test
for strings, `TypeError` otherwise. -/
def pyContains (v : JVal) (key : List Char) : Except PyErr Bool :=
  match v with
  | .obj kvs => .ok (dictGet kvs key).isSome
  | .arr xs => .ok (xs.any fun x => match x with | .str s => decide (s = key) | _ => false)
  | .str s => .ok (listSubstring key s)
  | _ => .error .typeError

/-- Python `v[key]` for a string key: dict item access (`KeyError`
when absent); list and string reject string indices, the rest is not
subscriptable (`TypeError`). -/
def pyGetItemStr (v : JVal) (key : List Char) : Except PyErr JVal :=
  match v with
  | .obj kvs =>
    match dictGet kvs key with
    | some x => .ok x
    | none => .error .keyError
  | _ => .error .typeError

/-- Python `len(v)`: defined for strings, lists and dicts; `TypeError`
for numbers, booleans and `None`. -/
def pyLen (v : JVal) : Except PyErr Nat :=
  match v with
  | .str s => .ok s.length
  | .arr xs => .ok xs.length
  | .obj kvs => .ok kvs.length
  | _ => .error .typeError

/-- Python `v[:4]`: a prefix for strings and lists; a dict rejects the
slice key and the rest is not subscriptable (`TypeError`). -/
def pySliceTo4 (v : JVal) : Except PyErr JVal :=
  match v with
  | .str s => .ok (.str (s.take 4))
  | .arr xs => .ok (.arr (xs.take 4))
  | _ => .error .typeError

/-- Whether a number lexeme denotes zero (sign and exponent ignored,
no nonzero digit in the mantissa); `NaN` and `Infinity` have no digits
and are truthy. -/
def numIsZero (lex : List Char) : Bool :=
  let mantissa := lex.takeWhile (fun c => c ≠ 'e' && c ≠ 'E')
  mantissa.all (fun c => !(isDigit c) || c = '0') && mantissa.any isDigit

/-- Python truthiness test `not v` (negated): `None`, `False`, zero,
and empty strings, lists and dicts are falsy. -/
def pyFalsy : JVal → Bool
  | .null => true
  | .bool b => !b
  | .num lex => numIsZero lex
  | .str s => s.isEmpty
  | .arr xs => xs.isEmpty
  | .obj kvs => kvs.isEmpty

/-- ASCII case folding of Python `str.lower()`. -/
def toLowerAscii (c : Char) : Char :=
  if 'A' ≤ c && c ≤ 'Z' then Char.ofNat (c.toNat + 32) else c

/-- Python `str.lower()`. -/
def pyLower (s : List Char) : List Char :=
  s.map toLowerAscii

/-! ## Quiz normalizer (`generate_quiz_question`, deterministic part)

The function takes the raw text of the model response
(`response.choices[0].message.content`); everything after that point
in the source is deterministic: strip, repair, parse, and truncate the
`options` entry to 4 when it is longer.  Only `json.JSONDecodeError`
is caught (returning `{}` and logging the stripped raw text); any
other exception propagates, which `result = .error _` records. -/

def optionsKey : List Char := "options".data

structure GenOutcome where
  result : Except PyErr JVal
  logged : Option (List Char)

def generate_quiz_question (content : List Char) : GenOutcome :=
  let output_text := strip content
  let sanitized := sanitize_json_output output_text
  match json_loads sanitized with
  | none => ⟨Except.ok (JVal.obj []), some output_text⟩
  | some quiz =>
    match pyContains quiz optionsKey with
    | .error e => ⟨Except.error e, none⟩
    | .ok false => ⟨Except.ok quiz, none⟩
    | .ok true =>
      match pyGetItemStr quiz optionsKey with
      | .error e => ⟨Except.error e, none⟩
      | .ok opts =>
        match pyLen opts with
        | .error e => ⟨Except.error e, none⟩
        | .ok n =>
          if 4 < n then
            match pySliceTo4 opts with
            | .error e => ⟨Except.error e, none⟩
            | .ok sliced =>
              match quiz with
              | .obj kvs => ⟨Except.ok (JVal.obj (dictSet kvs optionsKey sliced)), none⟩
              | _ => ⟨Except.error PyErr.typeError, none⟩
          else ⟨Except.ok quiz, none⟩

/-! ## Quiz store and endpoints -/

/-- Decimal digit character. -/
def digitChar (n : Nat) : Char :=
  Char.ofNat (48 + n)

/-- Decimal rendering, fuel-driven so that it computes by reduction;
`natToDec` supplies sufficient fuel. -/
def natToDecAux : Nat → Nat → List Char
  | 0, _ => []
  | fuel + 1, n =>
    if n < 10 then [digitChar n]
    else natToDecAux fuel (n / 10) ++ [digitChar (n % 10)]

/-- Python `str(n)` for a natural number. -/
def natToDec (n : Nat) : List Char :=
  natToDecAux (n + 1) n

/-- The in-memory `quiz_storage` dict. -/
abbrev Store := List (List Char × JVal)

/-- The registration fragment of `api_quiz`:
`quiz_id = str(len(quiz_storage) + 1)` followed by
`quiz_storage[quiz_id] = quiz`; returns the issued id and the new
store. -/
def register (store : Store) (quiz : JVal) : List Char × Store :=
  let quiz_id := natToDec (store.length + 1)
  (quiz_id, dictSet store quiz_id quiz)

inductive ApiQuizResult where
  | httpError (code : Nat)
  | success (quiz_id : List Char) (quiz : JVal)

/-- Endpoint `POST /generate-quiz`, given the raw model response text
for the transcript.  An exception from the normalizer, and the
explicit `HTTPException` raised for a falsy quiz, are both caught by
`except Exception` and surface as a 500 error; otherwise the quiz is
registered and returned with its id. -/
def api_quiz (store : Store) (content : List Char) : ApiQuizResult × Store :=
  match (generate_quiz_question content).result with
  | .error _ => (.httpError 500, store)
  | .ok quiz =>
    if pyFalsy quiz then (.httpError 500, store)
    else
      let r := register store quiz
      (.success r.1 quiz, r.2)

inductive SubmitResult where
  | notFound
  | answer (correct : Bool) (correct_answer : List Char)

/-- Endpoint `POST /quiz/submit-answer`: look the id up
(`quiz_storage.get`), treat a missing or falsy record as 404
(`notFound`), then compare the stripped lowercased submitted answer
with the record's stripped lowercased `correct_answer`.  The subscript
raises `KeyError` when the key is absent, and `.strip()` raises
`AttributeError` when the stored value is not a string. -/
def submit_quiz_answer (store : Store) (quiz_id : List Char) (ans : List Char) :
    Except PyErr SubmitResult :=
  match dictGet store quiz_id with
  | none => .ok .notFound
  | some quiz =>
    if pyFalsy quiz then .ok .notFound
    else
      match quiz with
      | .obj kvs =>
        match dictGet kvs ("correct_answer".data) with
        | none => .error .keyError
        | some (.str ca) =>
          .ok (.answer (decide (pyLower (strip ans) = pyLower (strip ca))) ca)
        | some _ => .error .attributeError
      | _ => .error .typeError

/-! ## Persistence collaborator (`src/db.py`) -/

structure DBRow where
  id : Nat
  transcript : List Char
  summary : List Char
  takeaways : List Char
  quiz : List Char

/-- The body of the result loop of `get_all_podcasts`:
`for summary, takeaways in results:` unpacks each selected row — a
3-tuple `(id, summary, takeaways)` — into two names, which raises
`ValueError` on the first row; an empty result set returns `[]`. -/
def podcastLoop : List (Nat × List Char × List Char) → Except PyErr (List JVal)
  | [] => Except.ok []
  | _ :: _ => Except.error PyErr.valueError

/-- `get_all_podcasts` from `src/db.py`.  The table rows are modelled
in insertion order; `id` is assigned by `AUTOINCREMENT`, so
`SELECT id, summary, takeaways ... ORDER BY id DESC` lists the rows in
reverse insertion order. -/
def get_all_podcasts (db : List DBRow) : Except PyErr (List JVal) :=
  let results := db.reverse.map (fun r => (r.id, r.summary, r.takeaways))
  podcastLoop results

/-! ## Orchestrator (`upload_audio`, `POST /process-podcast`)

External collaborators (Whisper, the hosted language model, the email
sender and the database) are an environment of fallible calls; the
quiz step feeds the external response text through
`generate_quiz_question`, whose exceptions also fail the step.
`upload_audio` returns the ordered trace of the steps it attempted
together with the request outcome; `except Exception` collapses any
failure into the single 500 error (`Except.error`). -/

inductive Step where
  | transcribe
  | summarize
  | takeaways
  | quiz
  | notify
  | save
deriving DecidableEq

structure Env where
  transcribeR : Except Unit (List Char)
  summarizeR : List Char → Except Unit (List Char)
  takeawaysR : List Char → Except Unit (List (List Char))
  quizContent : List Char → Except Unit (List Char)
  notifyR : List Char → Except Unit Unit
  saveR : List Char → List Char → List (List Char) → JVal → Except Unit Unit

structure UploadResponse where
  transcript : List Char
  summary : List Char
  takeaways : List (List Char)
  quiz : JVal

/-- The order in which `upload_audio` invokes its steps in
`src/main.py`: `send_detail` (notification) is called before
`db.save_podcast_data` (persistence). -/
def codeOrder : List Step :=
  [.transcribe, .summarize, .takeaways, .quiz, .notify, .save]

def upload_audio (env : Env) : List Step × Except Unit UploadResponse :=
  match env.transcribeR with
  | .error _ => ([.transcribe], .error ())
  | .ok transcript =>
    match env.summarizeR transcript with
    | .error _ => ([.transcribe, .summarize], .error ())
    | .ok summary =>
      match env.takeawaysR transcript with
      | .error _ => ([.transcribe, .summarize, .takeaways], .error ())
      | .ok tks =>
        match env.quizContent transcript with
        | .error _ => ([.transcribe, .summarize, .takeaways, .quiz], .error ())
        | .ok content =>
          match (generate_quiz_question content).result with
          | .error _ => ([.transcribe, .summarize, .takeaways, .quiz], .error ())
          | .ok quiz =>
            match env.notifyR summary with
            | .error _ => ([.transcribe, .summarize, .takeaways, .quiz, .notify], .error ())
            | .ok _ =>
              match env.saveR transcript summary tks quiz with
              | .error _ => (codeOrder, .error ())
              | .ok _ => (codeOrder, .ok ⟨transcript, summary, tks, quiz⟩)

/-! ## Predicates used to state the repair claims -/

/-- The text consists of whitespace followed by exactly one final
closing character equal to `closer`. -/
def wsThenCloserEnd (rest : List Char) (closer : Char) : Bool :=
  match rest.dropWhile isSpace with
  | [d] => d = closer
  | _ => false

/-- The text ends in a comma, optional whitespace, and the single
closing character `closer`. -/
def endsCommaWsCloser : List Char → Char → Bool
  | [], _ => false
  | c :: rest, closer =>
    (c = ',' && wsThenCloserEnd rest closer) || endsCommaWsCloser rest closer

/-- Some comma in the text is followed (modulo whitespace) by a
closing bracket, i.e. the text contains a match of the substitution
pattern of `sanitize_json_output`. -/
def hasTrailingCommaPat : List Char → Bool
  | [] => false
  | c :: rest => (c = ',' && commaMatch rest) || hasTrailingCommaPat rest

/-- The text ends in a comma followed only by whitespace. -/
def endsCommaWs : List Char → Bool
  | [] => false
  | c :: rest => (c = ',' && rest.all isSpace) || endsCommaWs rest

/-! ## Sequential use of the quiz store -/

/-- Sequential registrations: fold the `register` fragment of
`api_quiz` over a list of quiz records. -/
def registerAll (store : Store) : List JVal → Store
  | [] => store
  | q :: rest => registerAll (register store q).2 rest

/-- The store consisting of records numbered consecutively starting
at `k + 1`. -/
def mkStore : Nat → List JVal → Store
  | _, [] => []
  | k, q :: rest => (natToDec (k + 1), q) :: mkStore (k + 1) rest

/-- A fully succeeding environment for the orchestrator. -/
def envOk : Env :=
  ⟨Except.ok ("t".data),
   fun _ => Except.ok ("s".data),
   fun _ => Except.ok [],
   fun _ => Except.ok ("\x7b\"a\":1\x7d".data),
   fun _ => Except.ok (),
   fun _ _ _ _ => Except.ok ()⟩

/-! ## Lemmas about stripping and the comma-removal pass -/

theorem stripEnd_eq_self {l : List Char} {c : Char} (hl : l.getLast? = some c)
    (hc : isSpace c = false) : stripEnd l = l := by
  unfold stripEnd
  cases hr : l.reverse with
  | nil =>
    have hnil : l = [] := by simpa using congrArg List.reverse hr
    simp [hnil]
  | cons d t =>
    have hh : l.reverse.head? = some c := (List.head?_reverse l).symm ▸ hl
    rw [hr] at hh
    simp only [List.head?_cons, Option.some.injEq] at hh
    rw [List.dropWhile_cons_of_neg (by simp [hh, hc]), ← hr, List.reverse_reverse]

theorem stripEnd_append_eq (l : List Char) :
    stripEnd l ++ (l.reverse.takeWhile isSpace).reverse = l := by
  unfold stripEnd
  rw [← List.reverse_append, List.takeWhile_append_dropWhile, List.reverse_reverse]

theorem strip_getLast_not_space {l : List Char} {c : Char}
    (h : (strip l).getLast? = some c) : isSpace c = false := by
  unfold strip stripEnd at h
  rw [List.getLast?_reverse] at h
  have hd := List.head?_dropWhile_not isSpace (l.dropWhile isSpace).reverse
  rw [h] at hd
  simpa using hd

theorem strip_head_not_space {l : List Char} {c : Char}
    (h : (strip l).head? = some c) : isSpace c = false := by
  have happ := stripEnd_append_eq (l.dropWhile isSpace)
  unfold strip at h
  cases hs : stripEnd (l.dropWhile isSpace) with
  | nil => rw [hs] at h; simp at h
  | cons d t =>
    rw [hs] at h
    simp only [List.head?_cons, Option.some.injEq] at h
    rw [hs] at happ
    have hd := List.head?_dropWhile_not isSpace l
    rw [← happ] at hd
    simp only [List.cons_append, List.head?_cons] at hd
    exact h ▸ hd

theorem strip_idem (l : List Char) : strip (strip l) = strip l := by
  have h1 : (strip l).dropWhile isSpace = strip l := by
    cases hs : strip l with
    | nil => rfl
    | cons d t =>
      have hd : isSpace d = false := strip_head_not_space (l := l) (by rw [hs]; rfl)
      rw [List.dropWhile_cons_of_neg (by simp [hd])]
  show stripEnd ((strip l).dropWhile isSpace) = strip l
  rw [h1]
  cases hg : (strip l).getLast? with
  | none => rw [List.getLast?_eq_none_iff] at hg; rw [hg]; rfl
  | some c => exact stripEnd_eq_self hg (strip_getLast_not_space hg)

theorem strip_eq_dropWhile {l : List Char} {c : Char} (hl : l.getLast? = some c)
    (hc : isSpace c = false) : strip l = l.dropWhile isSpace := by
  unfold strip
  have hlast : (l.dropWhile isSpace).getLast? = some c := by
    have hsplit := List.takeWhile_append_dropWhile isSpace l
    cases hd : l.dropWhile isSpace with
    | nil =>
      exfalso
      have hmem : c ∈ l := by
        rcases List.mem_getLast?_eq_getLast (by rw [hl]; rfl) with ⟨hne, hceq⟩
        exact hceq ▸ List.getLast_mem hne
      rw [← hsplit, hd, List.append_nil] at hmem
      exact absurd (List.mem_takeWhile_imp hmem) (by simp [hc])
    | cons d t =>
      have : l.getLast? = (l.dropWhile isSpace).getLast? := by
        conv_lhs => rw [← hsplit]
        exact List.getLast?_append_of_ne_nil _ (by simp [hd])
      rw [← hd, ← this]; exact hl
  exact stripEnd_eq_self hlast hc

theorem subTrailingCommas_length_le (l : List Char) :
    (subTrailingCommas l).length ≤ l.length := by
  induction l with
  | nil => simp [subTrailingCommas]
  | cons c rest ih =>
    simp only [subTrailingCommas]
    split
    · exact Nat.le_trans ih (by simp)
    · simpa using Nat.succ_le_succ ih

theorem subTrailingCommas_getLast {l : List Char} {c : Char}
    (hl : l.getLast? = some c) (hc : isCloser c = true) :
    (subTrailingCommas l).getLast? = some c := by
  induction l with
  | nil => simp at hl
  | cons d rest ih =>
    cases hrest : rest with
    | nil =>
      subst hrest
      simp only [List.getLast?_singleton, Option.some.injEq] at hl
      subst hl
      simp [subTrailingCommas, commaMatch]
    | cons e t =>
      subst hrest
      have hl2 : (e :: t).getLast? = some c := by rwa [List.getLast?_cons_cons] at hl
      have hres := ih hl2
      have hstep : subTrailingCommas (d :: e :: t) =
          if (decide (d = ',') && commaMatch (e :: t)) = true then subTrailingCommas (e :: t)
          else d :: subTrailingCommas (e :: t) := rfl
      rw [hstep]
      split
      · exact hres
      · cases hz : subTrailingCommas (e :: t) with
        | nil => rw [hz] at hres; simp at hres
        | cons z zs =>
          rw [hz] at hres
          rw [List.getLast?_cons_cons]
          exact hres

theorem endsCommaWsCloser_getLast {l : List Char} {closer : Char}
    (h : endsCommaWsCloser l closer = true) : l.getLast? = some closer := by
  induction l with
  | nil => simp [endsCommaWsCloser] at h
  | cons c rest ih =>
    simp only [endsCommaWsCloser, Bool.or_eq_true, Bool.and_eq_true] at h
    rcases h with ⟨_, hw⟩ | h2
    · unfold wsThenCloserEnd at hw
      split at hw
      case _ d hdw =>
        have hd : d = closer := by simpa using hw
        subst hd
        have hsplit := List.takeWhile_append_dropWhile isSpace rest
        have hrne : rest ≠ [] := by
          intro hh; rw [hh] at hdw; simp at hdw
        have hcons : (c :: rest).getLast? = rest.getLast? := by
          cases rest with
          | nil => exact absurd rfl hrne
          | cons e t => exact List.getLast?_cons_cons
        rw [hcons, ← hsplit, hdw]
        exact List.getLast?_concat _
      case _ => simp at hw
    · have hres := ih h2
      have hrne : rest ≠ [] := by
        intro hh; subst hh; simp [endsCommaWsCloser] at h2
      cases rest with
      | nil => exact absurd rfl hrne
      | cons e t => rw [List.getLast?_cons_cons]; exact hres

theorem endsCommaWsCloser_dropWhile {l : List Char} {closer : Char}
    (h : endsCommaWsCloser l closer = true) :
    endsCommaWsCloser (l.dropWhile isSpace) closer = true := by
  induction l with
  | nil => simpa using h
  | cons c rest ih =>
    by_cases hc : isSpace c = true
    · rw [List.dropWhile_cons_of_pos hc]
      apply ih
      simp only [endsCommaWsCloser, Bool.or_eq_true, Bool.and_eq_true] at h
      rcases h with ⟨h1, _⟩ | h2
      · have : c = ',' := by simpa using h1
        subst this
        exact absurd hc (by decide)
      · exact h2
    · rw [List.dropWhile_cons_of_neg hc]; exact h

theorem commaMatch_of_wsThenCloserEnd {rest : List Char} {closer : Char}
    (hcl : isCloser closer = true) (h : wsThenCloserEnd rest closer = true) :
    commaMatch rest = true := by
  unfold wsThenCloserEnd at h
  unfold commaMatch
  split at h
  case _ d hdw =>
    have : d = closer := by simpa using h
    subst this
    rw [hdw]
    exact hcl
  case _ => simp at h

theorem subTrailingCommas_length_lt {l : List Char} {closer : Char}
    (hcl : isCloser closer = true) (h : endsCommaWsCloser l closer = true) :
    (subTrailingCommas l).length < l.length := by
  induction l with
  | nil => simp [endsCommaWsCloser] at h
  | cons c rest ih =>
    simp only [endsCommaWsCloser, Bool.or_eq_true, Bool.and_eq_true] at h
    simp only [subTrailingCommas]
    rcases h with ⟨h1, h2⟩ | h2
    · rw [if_pos (by simp only [Bool.and_eq_true]; exact ⟨h1, commaMatch_of_wsThenCloserEnd hcl h2⟩)]
      have := subTrailingCommas_length_le rest
      simp only [List.length_cons]
      omega
    · have := ih h2
      split
      · simp only [List.length_cons]; omega
      · simp only [List.length_cons]; omega

theorem subTrailingCommas_eq_self {l : List Char} (h : hasTrailingCommaPat l = false) :
    subTrailingCommas l = l := by
  induction l with
  | nil => rfl
  | cons c rest ih =>
    rw [hasTrailingCommaPat, Bool.or_eq_false_iff] at h
    simp only [subTrailingCommas]
    rw [if_neg (by simp [h.1]), ih h.2]

theorem commaMatch_append_brace {rest : List Char}
    (h1 : commaMatch rest = false) (h2 : rest.all isSpace = false) :
    commaMatch (rest ++ ['\x7d']) = false := by
  unfold commaMatch at h1 ⊢
  have hne : ¬ (rest.dropWhile isSpace).isEmpty = true := by
    intro hh
    rw [List.isEmpty_iff, List.dropWhile_eq_nil_iff] at hh
    rw [List.all_eq_true.mpr (by intro x hx; exact hh x hx)] at h2
    exact absurd h2 (by simp)
  rw [List.dropWhile_append, if_neg hne]
  cases hdw : rest.dropWhile isSpace with
  | nil => rw [hdw] at hne; simp at hne
  | cons d t =>
    rw [hdw] at h1
    simpa using h1

theorem hasTrailingCommaPat_append_brace {l : List Char}
    (h1 : hasTrailingCommaPat l = false) (h2 : endsCommaWs l = false) :
    hasTrailingCommaPat (l ++ ['\x7d']) = false := by
  induction l with
  | nil => decide
  | cons c rest ih =>
    rw [hasTrailingCommaPat, Bool.or_eq_false_iff] at h1
    rw [endsCommaWs, Bool.or_eq_false_iff] at h2
    rw [List.cons_append, hasTrailingCommaPat, Bool.or_eq_false_iff]
    refine ⟨?_, ih h1.2 h2.2⟩
    by_cases hc : c = ','
    · subst hc
      rw [Bool.and_eq_false_iff] at h1 h2 ⊢
      rcases h1.1 with hb | hcm
      · exact absurd hb (by simp)
      · rcases h2.1 with hb | hall
        · exact absurd hb (by simp)
        · exact Or.inr (commaMatch_append_brace hcm hall)
    · simp [hc]

/-! ## Claim C1 -/

/-- C1 (amended): for every input ending in a comma, optional
whitespace and a closing brace, JSON Repair removes at least the final
comma (the output of the comma pass is strictly shorter than the
stripped input), appends nothing, and the result is valid JSON
whenever the comma-repaired stripped text is valid JSON.  The original
claim also covered inputs ending in `]`, for which the appended brace
makes the output invalid; see the counterexample. -/
theorem sanitize_repairs_trailing_comma_object (s : List Char)
    (hend : endsCommaWsCloser s '\x7d' = true)
    (hvalid : jsonValid (subTrailingCommas (strip s)) = true) :
    sanitize_json_output s = subTrailingCommas (strip s) ∧
    (subTrailingCommas (strip s)).length < (strip s).length ∧
    jsonValid (sanitize_json_output s) = true := by
  have hlast : s.getLast? = some '\x7d' := endsCommaWsCloser_getLast hend
  have hstrip : strip s = s.dropWhile isSpace := strip_eq_dropWhile hlast (by decide)
  have hend2 : endsCommaWsCloser (strip s) '\x7d' = true := by
    rw [hstrip]; exact endsCommaWsCloser_dropWhile hend
  have hlast2 : (strip s).getLast? = some '\x7d' := endsCommaWsCloser_getLast hend2
  have hsub : (subTrailingCommas (strip s)).getLast? = some '\x7d' :=
    subTrailingCommas_getLast hlast2 (by decide)
  have hsan : sanitize_json_output s = subTrailingCommas (strip s) := by
    simp only [sanitize_json_output]
    rw [if_pos hsub]
  exact ⟨hsan, subTrailingCommas_length_lt (by decide) hend2, by rw [hsan]; exact hvalid⟩

/-- C1 (counterexample): the input `[1,]` ends in a comma and a
closing `]`, the rest of its structure is valid JSON once the trailing
comma is removed, yet the repaired output `[1]` followed by the
appended brace is not valid JSON. -/
theorem sanitize_repairs_trailing_comma_array_counterexample :
    endsCommaWsCloser ("[1,]".data) ']' = true ∧
    jsonValid (subTrailingCommas (strip ("[1,]".data))) = true ∧
    jsonValid (sanitize_json_output ("[1,]".data)) = false := by
  decide

/-- C1 (witness): the amended theorem applied to the concrete input
consisting of an object with a trailing comma before its brace. -/
theorem sanitize_repairs_trailing_comma_object_witness :
    sanitize_json_output ("\x7b\"a\": 1, \x7d".data) =
      subTrailingCommas (strip ("\x7b\"a\": 1, \x7d".data)) ∧
    (subTrailingCommas (strip ("\x7b\"a\": 1, \x7d".data))).length <
      (strip ("\x7b\"a\": 1, \x7d".data)).length ∧
    jsonValid (sanitize_json_output ("\x7b\"a\": 1, \x7d".data)) = true :=
  sanitize_repairs_trailing_comma_object _ (by decide) (by rfl)

/-! ## Claim C2 -/

/-- C2 (amended): when the stripped comma-repaired text does not end
with a brace, JSON Repair appends exactly one brace; and JSON Repair
is idempotent on every input whose stripped form contains no
comma-before-closing-bracket pattern and does not end in a comma
followed only by whitespace.  Unrestricted idempotence is false: see
the counterexample. -/
theorem sanitize_appends_one_brace_and_conditional_idempotence :
    (∀ s : List Char, ¬ (subTrailingCommas (strip s)).getLast? = some '\x7d' →
      sanitize_json_output s = subTrailingCommas (strip s) ++ ['\x7d']) ∧
    (∀ s : List Char, hasTrailingCommaPat (strip s) = false → endsCommaWs (strip s) = false →
      sanitize_json_output (sanitize_json_output s) = sanitize_json_output s) := by
  constructor
  · intro s h
    simp only [sanitize_json_output]
    rw [if_neg h]
  · intro s h1 h2
    have hsub : subTrailingCommas (strip s) = strip s := subTrailingCommas_eq_self h1
    by_cases hend : (strip s).getLast? = some '\x7d'
    · have hs1 : sanitize_json_output s = strip s := by
        simp only [sanitize_json_output]; rw [hsub, if_pos hend]
      rw [hs1]
      simp only [sanitize_json_output]
      rw [strip_idem, hsub, if_pos hend]
    · have hs1 : sanitize_json_output s = strip s ++ ['\x7d'] := by
        simp only [sanitize_json_output]; rw [hsub, if_neg hend]
      rw [hs1]
      have hstrip2 : strip (strip s ++ ['\x7d']) = strip s ++ ['\x7d'] := by
        have hlast : (strip s ++ ['\x7d']).getLast? = some '\x7d' := List.getLast?_concat _
        rw [strip_eq_dropWhile hlast (by decide)]
        cases hq : strip s with
        | nil => rfl
        | cons d t =>
          have hd : isSpace d = false := strip_head_not_space (l := s) (by rw [hq]; rfl)
          rw [List.cons_append, List.dropWhile_cons_of_neg (by simp [hd])]
      simp only [sanitize_json_output]
      rw [hstrip2]
      rw [subTrailingCommas_eq_self (hasTrailingCommaPat_append_brace h1 h2),
        if_pos (List.getLast?_concat _)]

/-- C2 (counterexample): JSON Repair is not idempotent; on the input
made of a comma, a space and a brace, the first application yields a
space and a brace, the second strips the now-leading space. -/
theorem sanitize_not_idempotent_counterexample :
    sanitize_json_output (sanitize_json_output (", \x7d".data)) ≠
      sanitize_json_output (", \x7d".data) := by
  decide

/-- C2 (witness): the amended theorem applied to the concrete inputs
`[1` (for the brace-appending part) and an already-valid object (for
the idempotence part). -/
theorem sanitize_appends_one_brace_and_conditional_idempotence_witness :
    sanitize_json_output ("[1".data) = subTrailingCommas (strip ("[1".data)) ++ ['\x7d'] ∧
    sanitize_json_output (sanitize_json_output ("\x7b\"a\":1\x7d".data)) =
      sanitize_json_output ("\x7b\"a\":1\x7d".data) :=
  ⟨sanitize_appends_one_brace_and_conditional_idempotence.1 _ (by decide),
   sanitize_appends_one_brace_and_conditional_idempotence.2 _ (by decide) (by decide)⟩

/-! ## Claim C3 -/

/-- C3: for every repaired text that parses as a JSON object whose
`options` entry is a list, the normalizer truncates the list to its
first 4 elements in order when it has more than 4, returns it
unchanged when it has 4 or fewer (no padding, no rejection), and all
other fields are returned exactly as parsed (dict assignment touches
only the `options` key). -/
theorem quiz_options_truncated_to_four (content : List Char)
    (kvs : List (List Char × JVal)) (xs : List JVal)
    (hp : json_loads (sanitize_json_output (strip content)) = some (JVal.obj kvs))
    (ho : dictGet kvs optionsKey = some (JVal.arr xs)) :
    (generate_quiz_question content).result =
      Except.ok (JVal.obj
        (if 4 < xs.length then dictSet kvs optionsKey (JVal.arr (xs.take 4)) else kvs)) := by
  simp only [generate_quiz_question, hp, pyContains, ho, pyGetItemStr, pyLen, pySliceTo4,
    Option.isSome]
  split <;> rfl

/-- C3 (witness): the theorem applied to the five-option example of
the specification; the options come back truncated to the first four. -/
theorem quiz_options_truncated_to_four_witness :
    (generate_quiz_question
      ("\x7b\"question\":\"Q\",\"options\":[\"a\",\"b\",\"c\",\"d\",\"e\"],\"correct_answer\":\"a\"\x7d".data)).result =
      Except.ok (JVal.obj
        [("question".data, JVal.str ("Q".data)),
         ("options".data, JVal.arr [JVal.str ("a".data), JVal.str ("b".data),
           JVal.str ("c".data), JVal.str ("d".data)]),
         ("correct_answer".data, JVal.str ("a".data))]) :=
  quiz_options_truncated_to_four
    ("\x7b\"question\":\"Q\",\"options\":[\"a\",\"b\",\"c\",\"d\",\"e\"],\"correct_answer\":\"a\"\x7d".data)
    _ _ rfl rfl

/-! ## Claim C4 -/

/-- C4: for every raw model text whose repaired form fails to parse as
JSON, the normalizer returns the empty record, raises no exception,
and logs the (stripped) raw model output text. -/
theorem quiz_parse_failure_returns_empty (content : List Char)
    (h : json_loads (sanitize_json_output (strip content)) = none) :
    generate_quiz_question content = ⟨Except.ok (JVal.obj []), some (strip content)⟩ := by
  simp only [generate_quiz_question, h]

/-- C4 (witness): the theorem applied to a plain-prose model response. -/
theorem quiz_parse_failure_returns_empty_witness :
    generate_quiz_question ("no quiz today".data) =
      ⟨Except.ok (JVal.obj []), some ("no quiz today".data)⟩ :=
  quiz_parse_failure_returns_empty _ rfl

/-! ## Claim C9 -/

/-- C9: the never-raises guarantee covers only JSON decoding failures:
the repaired text of the concrete input whose `options` value is the
number 5 parses successfully as a JSON object, and on it the
normalizer raises an uncaught `TypeError` (from `len` of a number)
instead of returning a record; nothing is logged. -/
theorem quiz_normalizer_typeerror_on_unsized_options :
    json_loads (sanitize_json_output (strip ("\x7b\"options\": 5\x7d".data))) =
      some (JVal.obj [(optionsKey, JVal.num ("5".data))]) ∧
    (generate_quiz_question ("\x7b\"options\": 5\x7d".data)).result =
      Except.error PyErr.typeError ∧
    (generate_quiz_question ("\x7b\"options\": 5\x7d".data)).logged = none :=
  ⟨rfl, rfl, rfl⟩

/-! ## Lemmas about decimal identifiers and the store -/

theorem natToDecAux_irrel : ∀ f1 f2 n : Nat, n < f1 → n < f2 →
    natToDecAux f1 n = natToDecAux f2 n := by
  intro f1
  induction f1 with
  | zero => intro f2 n h1 _; omega
  | succ g ih =>
    intro f2 n h1 h2
    cases f2 with
    | zero => omega
    | succ g2 =>
      simp only [natToDecAux]
      by_cases h10 : n < 10
      · rw [if_pos h10, if_pos h10]
      · rw [if_neg h10, if_neg h10]
        have h3 : n / 10 < n := Nat.div_lt_self (by omega) (by omega)
        rw [ih g2 (n / 10) (by omega) (by omega)]

theorem natToDec_eq (n : Nat) :
    natToDec n = if n < 10 then [digitChar n] else natToDec (n / 10) ++ [digitChar (n % 10)] := by
  show natToDecAux (n + 1) n = _
  simp only [natToDecAux]
  by_cases h10 : n < 10
  · rw [if_pos h10, if_pos h10]
  · rw [if_neg h10, if_neg h10]
    have h3 : n / 10 < n := Nat.div_lt_self (by omega) (by omega)
    rw [natToDecAux_irrel n (n / 10 + 1) (n / 10) (by omega) (by omega)]
    rfl

theorem natToDec_ne_nil (n : Nat) : natToDec n ≠ [] := by
  rw [natToDec_eq]
  split <;> simp

theorem digitChar_inj : ∀ a, a < 10 → ∀ b, b < 10 → digitChar a = digitChar b → a = b := by
  decide

theorem natToDec_inj : ∀ m k : Nat, natToDec m = natToDec k → m = k := by
  intro m
  induction m using Nat.strong_induction_on with
  | _ m ih =>
    intro k h
    rw [natToDec_eq m, natToDec_eq k] at h
    by_cases hm : m < 10 <;> by_cases hk : k < 10
    · rw [if_pos hm, if_pos hk] at h
      simp only [List.cons.injEq, and_true] at h
      exact digitChar_inj m hm k hk h
    · rw [if_pos hm, if_neg hk] at h
      exfalso
      have hlen := congrArg List.length h
      have hne := natToDec_ne_nil (k / 10)
      have hpos : 0 < (natToDec (k / 10)).length := List.length_pos.mpr hne
      simp only [List.length_singleton, List.length_append] at hlen
      omega
    · rw [if_neg hm, if_pos hk] at h
      exfalso
      have hlen := congrArg List.length h
      have hne := natToDec_ne_nil (m / 10)
      have hpos : 0 < (natToDec (m / 10)).length := List.length_pos.mpr hne
      simp only [List.length_singleton, List.length_append] at hlen
      omega
    · rw [if_neg hm, if_neg hk] at h
      have h2 := congrArg List.reverse h
      simp only [List.reverse_append, List.reverse_cons, List.reverse_nil, List.nil_append,
        List.cons_append, List.cons.injEq] at h2
      obtain ⟨hd, htl⟩ := h2
      have hmod : m % 10 = k % 10 :=
        digitChar_inj _ (Nat.mod_lt _ (by omega)) _ (Nat.mod_lt _ (by omega)) hd
      have hdivEq : natToDec (m / 10) = natToDec (k / 10) := by
        have := congrArg List.reverse htl
        simpa using this
      have hdiv : m / 10 = k / 10 :=
        ih (m / 10) (Nat.div_lt_self (by omega) (by omega)) (k / 10) hdivEq
      have hm2 := Nat.div_add_mod m 10
      have hk2 := Nat.div_add_mod k 10
      omega

theorem dictGet_dictSet (kvs : Store) (k : List Char) (v : JVal) :
    dictGet (dictSet kvs k v) k = some v := by
  induction kvs with
  | nil => simp [dictSet, dictGet]
  | cons p rest ih =>
    simp only [dictSet]
    by_cases hp : p.1 = k
    · rw [if_pos hp]; simp [dictGet]
    · rw [if_neg hp]
      simp only [dictGet, if_neg hp]
      exact ih

theorem dictSet_append_of_fresh (store : Store) (k : List Char) (v : JVal)
    (h : ∀ p ∈ store, p.1 ≠ k) : dictSet store k v = store ++ [(k, v)] := by
  induction store with
  | nil => rfl
  | cons p rest ih =>
    simp only [dictSet]
    rw [if_neg (h p (by simp)), ih (fun q hq => h q (by simp [hq]))]
    rfl

theorem mkStore_length (k : Nat) (qs : List JVal) : (mkStore k qs).length = qs.length := by
  induction qs generalizing k with
  | nil => rfl
  | cons q rest ih => simp [mkStore, ih]

theorem mkStore_append_one (k : Nat) (qs : List JVal) (q : JVal) :
    mkStore k (qs ++ [q]) = mkStore k qs ++ [(natToDec (k + qs.length + 1), q)] := by
  induction qs generalizing k with
  | nil => simp [mkStore]
  | cons x rest ih =>
    simp only [List.cons_append, mkStore, List.length_cons, List.append_eq]
    rw [ih (k + 1)]
    have harg : k + 1 + rest.length + 1 = k + (rest.length + 1) + 1 := by omega
    rw [harg]

theorem mkStore_keys {k : Nat} {qs : List JVal} {p : List Char × JVal} (h : p ∈ mkStore k qs) :
    ∃ j, k < j ∧ j ≤ k + qs.length ∧ p.1 = natToDec j := by
  induction qs generalizing k with
  | nil => simp [mkStore] at h
  | cons q rest ih =>
    simp only [mkStore, List.mem_cons] at h
    rcases h with h | h
    · refine ⟨k + 1, by omega, ?_, by rw [h]⟩
      simp only [List.length_cons]
      omega
    · obtain ⟨j, h1, h2, h3⟩ := ih (k := k + 1) h
      exact ⟨j, by omega, by simp only [List.length_cons]; omega, h3⟩

theorem registerAll_mkStore (qs : List JVal) : ∀ ps : List JVal,
    registerAll (mkStore 0 ps) qs = mkStore 0 (ps ++ qs) := by
  induction qs with
  | nil => intro ps; simp [registerAll]
  | cons q rest ih =>
    intro ps
    simp only [registerAll, register]
    have hlen : (mkStore 0 ps).length = ps.length := mkStore_length 0 ps
    have hfresh : ∀ p ∈ mkStore 0 ps, p.1 ≠ natToDec ((mkStore 0 ps).length + 1) := by
      intro p hp heq
      obtain ⟨j, h1, h2, h3⟩ := mkStore_keys hp
      rw [h3] at heq
      have := natToDec_inj j ((mkStore 0 ps).length + 1) heq
      omega
    rw [dictSet_append_of_fresh _ _ _ hfresh, hlen]
    have hone : mkStore 0 ps ++ [(natToDec (ps.length + 1), q)] = mkStore 0 (ps ++ [q]) := by
      rw [mkStore_append_one]
      simp
    rw [hone, ih (ps ++ [q]), List.append_assoc]
    rfl

theorem registerAll_from_empty (qs : List JVal) : registerAll [] qs = mkStore 0 qs := by
  have := registerAll_mkStore qs []
  simpa [mkStore] using this

theorem mkStore_keys_eq (k : Nat) (qs : List JVal) :
    (mkStore k qs).map Prod.fst =
      (List.range qs.length).map (fun i => natToDec (k + i + 1)) := by
  induction qs generalizing k with
  | nil => rfl
  | cons q rest ih =>
    simp only [mkStore, List.map_cons, List.length_cons, List.range_succ_eq_map,
      List.map_map]
    have harg : k + 0 + 1 = k + 1 := by omega
    rw [harg, ih (k + 1)]
    congr 1
    refine List.map_congr_left (fun a ha => ?_)
    simp only [Function.comp_apply]
    exact congrArg natToDec (show k + 1 + a + 1 = k + (a + 1) + 1 by omega)

theorem mkStore_dictGet (qs : List JVal) : ∀ (k i : Nat) (h : i < qs.length),
    dictGet (mkStore k qs) (natToDec (k + i + 1)) = some (qs.get ⟨i, h⟩) := by
  induction qs with
  | nil => intro k i h; simp at h
  | cons q rest ih =>
    intro k i h
    cases i with
    | zero => simp [mkStore, dictGet]
    | succ i2 =>
      simp only [mkStore, dictGet]
      rw [if_neg (fun heq => by have := natToDec_inj _ _ heq; omega)]
      have harg : k + (i2 + 1) + 1 = k + 1 + i2 + 1 := by omega
      rw [harg]
      exact ih (k + 1) i2 (by simpa using h)

/-! ## Claim C5 -/

/-- C5: under sequential use, `register` issues the identifier
`str(current size + 1)` and an immediate lookup of the issued
identifier returns the registered record; moreover, along any sequence
of registrations from the empty store, the issued identifiers (the
store keys) are pairwise distinct and each identifier still looks up
the record registered under it at the end of the sequence. -/
theorem quiz_store_roundtrip_and_distinct_ids :
    (∀ (store : Store) (q : JVal),
      (register store q).1 = natToDec (store.length + 1) ∧
      dictGet (register store q).2 (register store q).1 = some q) ∧
    (∀ qs : List JVal, ((registerAll [] qs).map Prod.fst).Nodup) ∧
    (∀ (qs : List JVal) (i : Nat) (h : i < qs.length),
      dictGet (registerAll [] qs) (natToDec (i + 1)) = some (qs.get ⟨i, h⟩)) := by
  refine ⟨fun store q => ⟨rfl, dictGet_dictSet store _ q⟩, ?_, ?_⟩
  · intro qs
    rw [registerAll_from_empty, mkStore_keys_eq]
    exact List.Nodup.map (fun a b hab => by have := natToDec_inj _ _ hab; omega)
      (List.nodup_range _)
  · intro qs i h
    rw [registerAll_from_empty]
    have hres := mkStore_dictGet qs 0 i h
    have harg : 0 + i + 1 = i + 1 := by omega
    rw [harg] at hres
    exact hres

/-- C5 (witness): registering two records sequentially from the empty
store and looking the second identifier up returns the second record. -/
theorem quiz_store_roundtrip_and_distinct_ids_witness :
    dictGet (registerAll [] [JVal.null, JVal.bool true]) (natToDec 2) =
      some (JVal.bool true) :=
  quiz_store_roundtrip_and_distinct_ids.2.2 [JVal.null, JVal.bool true] 1 (by decide)

/-! ## Claim C6 -/

/-- C6: submitting an answer for a never-registered identifier signals
not-found (a 404, not a generic error); submitting for a present quiz
record (an object with a string `correct_answer`) reports whether the
stripped lowercased submitted answer equals the stripped lowercased
stored answer, together with the stored canonical answer, in both
outcomes. -/
theorem submit_answer_contract :
    (∀ (store : Store) (qid ans : List Char),
      dictGet store qid = none →
      submit_quiz_answer store qid ans = Except.ok SubmitResult.notFound) ∧
    (∀ (store : Store) (qid ans : List Char) (kvs : List (List Char × JVal)) (ca : List Char),
      dictGet store qid = some (JVal.obj kvs) → kvs ≠ [] →
      dictGet kvs ("correct_answer".data) = some (JVal.str ca) →
      submit_quiz_answer store qid ans =
        Except.ok (SubmitResult.answer
          (decide (pyLower (strip ans) = pyLower (strip ca))) ca)) := by
  constructor
  · intro store qid ans h
    simp [submit_quiz_answer, h]
  · intro store qid ans kvs ca h hne hca
    have hf : pyFalsy (JVal.obj kvs) = false := by
      cases kvs with
      | nil => exact absurd rfl hne
      | cons p rest => rfl
    simp [submit_quiz_answer, h, hf, hca]

/-- C6 (witness): the theorem applied to the empty store (not found)
and to a store holding one record whose stored answer is lowercase
`a`, submitted against the answer consisting of a padded uppercase A,
which matches. -/
theorem submit_answer_contract_witness :
    submit_quiz_answer [] ("9".data) ("x".data) = Except.ok SubmitResult.notFound ∧
    submit_quiz_answer [(("1".data), JVal.obj [("correct_answer".data, JVal.str ("a".data))])]
      ("1".data) (" A ".data) = Except.ok (SubmitResult.answer true ("a".data)) :=
  ⟨submit_answer_contract.1 [] _ _ rfl,
   submit_answer_contract.2
     [(("1".data), JVal.obj [("correct_answer".data, JVal.str ("a".data))])]
     ("1".data) (" A ".data) _ _ rfl (List.cons_ne_nil _ _) rfl⟩

/-! ## Claim C7 -/

/-- C7 (amended): the orchestrator performs transcription,
summarization, takeaway extraction, quiz generation, notification and
persistence in that order (notification precedes persistence in the
code); any failure aborts the remaining steps, leaving the attempted
trace a non-empty prefix of the full order; the request succeeds only
when every step ran; and persistence is attempted only when every
earlier step succeeded, so no partial results are persisted. -/
theorem upload_sequencing (env : Env) :
    (∃ k, 1 ≤ k ∧ k ≤ 6 ∧ (upload_audio env).1 = codeOrder.take k) ∧
    (∀ resp, (upload_audio env).2 = Except.ok resp → (upload_audio env).1 = codeOrder) ∧
    (Step.save ∈ (upload_audio env).1 → (upload_audio env).1 = codeOrder) := by
  cases h1 : env.transcribeR with
  | error e =>
    have heq : upload_audio env = ([Step.transcribe], Except.error ()) := by
      simp only [upload_audio, h1]
    rw [heq]
    exact ⟨⟨1, by omega, by omega, rfl⟩, fun resp hr => by simp at hr,
      fun hmem => absurd hmem (by decide)⟩
  | ok transcript =>
    cases h2 : env.summarizeR transcript with
    | error e =>
      have heq : upload_audio env = ([Step.transcribe, Step.summarize], Except.error ()) := by
        simp only [upload_audio, h1, h2]
      rw [heq]
      exact ⟨⟨2, by omega, by omega, rfl⟩, fun resp hr => by simp at hr,
        fun hmem => absurd hmem (by decide)⟩
    | ok summary =>
      cases h3 : env.takeawaysR transcript with
      | error e =>
        have heq : upload_audio env =
            ([Step.transcribe, Step.summarize, Step.takeaways], Except.error ()) := by
          simp only [upload_audio, h1, h2, h3]
        rw [heq]
        exact ⟨⟨3, by omega, by omega, rfl⟩, fun resp hr => by simp at hr,
          fun hmem => absurd hmem (by decide)⟩
      | ok tks =>
        cases h4 : env.quizContent transcript with
        | error e =>
          have heq : upload_audio env =
              ([Step.transcribe, Step.summarize, Step.takeaways, Step.quiz],
               Except.error ()) := by
            simp only [upload_audio, h1, h2, h3, h4]
          rw [heq]
          exact ⟨⟨4, by omega, by omega, rfl⟩, fun resp hr => by simp at hr,
            fun hmem => absurd hmem (by decide)⟩
        | ok content =>
          cases h5 : (generate_quiz_question content).result with
          | error e =>
            have heq : upload_audio env =
                ([Step.transcribe, Step.summarize, Step.takeaways, Step.quiz],
                 Except.error ()) := by
              simp only [upload_audio, h1, h2, h3, h4, h5]
            rw [heq]
            exact ⟨⟨4, by omega, by omega, rfl⟩, fun resp hr => by simp at hr,
              fun hmem => absurd hmem (by decide)⟩
          | ok quiz =>
            cases h6 : env.notifyR summary with
            | error e =>
              have heq : upload_audio env =
                  ([Step.transcribe, Step.summarize, Step.takeaways, Step.quiz, Step.notify],
                   Except.error ()) := by
                simp only [upload_audio, h1, h2, h3, h4, h5, h6]
              rw [heq]
              exact ⟨⟨5, by omega, by omega, rfl⟩, fun resp hr => by simp at hr,
                fun hmem => absurd hmem (by decide)⟩
            | ok u =>
              cases h7 : env.saveR transcript summary tks quiz with
              | error e =>
                have heq : upload_audio env = (codeOrder, Except.error ()) := by
                  simp only [upload_audio, h1, h2, h3, h4, h5, h6, h7]
                rw [heq]
                exact ⟨⟨6, by omega, by omega, rfl⟩, fun resp hr => by simp at hr,
                  fun hmem => rfl⟩
              | ok u2 =>
                have heq : upload_audio env =
                    (codeOrder, Except.ok ⟨transcript, summary, tks, quiz⟩) := by
                  simp only [upload_audio, h1, h2, h3, h4, h5, h6, h7]
                rw [heq]
                exact ⟨⟨6, by omega, by omega, rfl⟩, fun resp hr => rfl, fun hmem => rfl⟩

/-- C7 (counterexample): with every collaborator succeeding, the
attempted trace runs notification before persistence, not persistence
before notification as claimed. -/
theorem upload_notifies_before_persisting_counterexample :
    (upload_audio envOk).1 =
      [Step.transcribe, Step.summarize, Step.takeaways, Step.quiz, Step.notify, Step.save] ∧
    (upload_audio envOk).1 ≠
      [Step.transcribe, Step.summarize, Step.takeaways, Step.quiz, Step.save, Step.notify] := by
  decide

/-- C7 (witness): the amended theorem applied to the fully succeeding
environment yields the complete trace in code order. -/
theorem upload_sequencing_witness : (upload_audio envOk).1 = codeOrder :=
  (upload_sequencing envOk).2.2 (by decide)

/-! ## Claim C8 -/

/-- C8 (code bug): the persistence collaborator's `get_all_podcasts`
selects three columns per row but unpacks each row into two loop
variables, so it raises `ValueError` for every database state with at
least one row; only the empty state returns the (empty) sequence. -/
theorem get_all_podcasts_raises_on_nonempty :
    get_all_podcasts [] = Except.ok [] ∧
    get_all_podcasts
      [⟨1, ("t".data), ("s".data), ("[\"k\"]".data), ("\x7b\x7d".data)⟩] =
      Except.error PyErr.valueError :=
  ⟨rfl, rfl⟩

/-! ## Claim C10 -/

theorem dictSet_ne_nil (kvs : List (List Char × JVal)) (k : List Char) (v : JVal) :
    dictSet kvs k v ≠ [] := by
  cases kvs with
  | nil => simp [dictSet]
  | cons p rest =>
    simp only [dictSet]
    split <;> simp

theorem gen_ok_shape {content : List Char} {kvs : List (List Char × JVal)} {q : JVal}
    (hp : json_loads (sanitize_json_output (strip content)) = some (JVal.obj kvs))
    (hq : (generate_quiz_question content).result = Except.ok q) :
    q = JVal.obj kvs ∨ ∃ v, q = JVal.obj (dictSet kvs optionsKey v) := by
  simp only [generate_quiz_question, hp, pyContains, pyGetItemStr] at hq
  cases ho : dictGet kvs optionsKey with
  | none =>
    rw [ho] at hq
    simp only [Option.isSome_none] at hq
    exact Or.inl (by injection hq with h; exact h.symm)
  | some opts =>
    rw [ho] at hq
    simp only [Option.isSome_some] at hq
    cases hl : pyLen opts with
    | error e => simp [hl] at hq
    | ok n =>
      simp only [hl] at hq
      by_cases h4 : 4 < n
      · rw [if_pos h4] at hq
        cases hs : pySliceTo4 opts with
        | error e => simp [hs] at hq
        | ok sliced =>
          simp only [hs] at hq
          exact Or.inr ⟨sliced, by injection hq with h; exact h.symm⟩
      · rw [if_neg h4] at hq
        simp only [] at hq
        exact Or.inl (by injection hq with h; exact h.symm)

/-- C10 (amended): neither the normalizer nor the store validates the
keys `question`, `options`, `correct_answer`: every non-empty
successfully-parsed object whose normalization returns (rather than
raises — see the counterexample for the raising case) is registered
under the identifier `str(size + 1)`; and submitting an answer for a
stored non-empty record lacking `correct_answer` raises an uncaught
`KeyError` instead of returning a result. -/
theorem store_accepts_unvalidated_records :
    (∀ (store : Store) (content : List Char) (kvs : List (List Char × JVal)) (q : JVal),
      json_loads (sanitize_json_output (strip content)) = some (JVal.obj kvs) → kvs ≠ [] →
      (generate_quiz_question content).result = Except.ok q →
      api_quiz store content =
        (ApiQuizResult.success (natToDec (store.length + 1)) q,
         dictSet store (natToDec (store.length + 1)) q)) ∧
    (∀ (store : Store) (qid ans : List Char) (kvs : List (List Char × JVal)),
      dictGet store qid = some (JVal.obj kvs) → kvs ≠ [] →
      dictGet kvs ("correct_answer".data) = none →
      submit_quiz_answer store qid ans = Except.error PyErr.keyError) := by
  constructor
  · intro store content kvs q hp hne hq
    have hshape := gen_ok_shape hp hq
    have hfalsy : pyFalsy q = false := by
      rcases hshape with h | ⟨v, h⟩
      · subst h
        cases kvs with
        | nil => exact absurd rfl hne
        | cons p rest => rfl
      · subst h
        have hd := dictSet_ne_nil kvs optionsKey v
        cases hds : dictSet kvs optionsKey v with
        | nil => exact absurd hds hd
        | cons p rest => simp [pyFalsy, hds]
    simp only [api_quiz, hq, hfalsy, register, Bool.false_eq_true, if_false]
  · intro store qid ans kvs h hne hca
    have hf : pyFalsy (JVal.obj kvs) = false := by
      cases kvs with
      | nil => exact absurd rfl hne
      | cons p rest => rfl
    simp [submit_quiz_answer, h, hf, hca]

/-- C10 (counterexample): the repaired text of the input whose
`options` value is the number 7 parses as a non-empty object, yet
nothing is registered: the normalizer raises and `api_quiz` returns
the 500 error, leaving the store unchanged. -/
theorem store_rejects_raising_object_counterexample :
    json_loads (sanitize_json_output (strip ("\x7b\"options\": 7\x7d".data))) =
      some (JVal.obj [(optionsKey, JVal.num ("7".data))]) ∧
    api_quiz [] ("\x7b\"options\": 7\x7d".data) = (ApiQuizResult.httpError 500, []) :=
  ⟨rfl, rfl⟩

/-- C10 (witness): an object with none of the quiz keys is registered
under identifier 1, and submitting against a stored record lacking
`correct_answer` raises `KeyError`. -/
theorem store_accepts_unvalidated_records_witness :
    api_quiz [] ("\x7b\"a\": 1\x7d".data) =
      (ApiQuizResult.success (natToDec 1) (JVal.obj [("a".data, JVal.num ("1".data))]),
       [((natToDec 1), JVal.obj [("a".data, JVal.num ("1".data))])]) ∧
    submit_quiz_answer [(("1".data), JVal.obj [("question".data, JVal.str ("Q".data))])]
      ("1".data) ("x".data) = Except.error PyErr.keyError :=
  ⟨store_accepts_unvalidated_records.1 [] ("\x7b\"a\": 1\x7d".data) _ _ rfl
      (List.cons_ne_nil _ _) rfl,
   store_accepts_unvalidated_records.2 _ _ _ _ rfl (List.cons_ne_nil _ _) rfl⟩

end Podcast
